import Mathlib

/- Shallow embedding of the AWS Secrets Manager version-cleanup tool
   (cleanupSecretVersions.js): the retention planner
   `identifyVersionsToCleanup` together with its helpers
   `parseTimestampLabel` and `isTimestampLabel`.

   Modelling conventions:
   * JavaScript `Date` values are integer milliseconds, modelled as `Int`.
   * `new Date(y, m, d, h, mi, s)` is embedded through the ECMAScript
     MakeDay/MakeTime calendar arithmetic (out-of-range month/day fields
     roll over), including the two-digit-year quirk of the Date
     constructor.  All Date values the program compares are interpreted
     under one fixed UTC offset, which cancels in every comparison the
     program performs, so the offset is omitted.
   * The wall clock read by `new Date()` inside the planner is modelled as
     an explicit `Clock` argument holding the local calendar components
     that `getDate`/`setDate` operate on.
   * The label map is `Object.entries(versions)`: an association list in
     iteration order (JavaScript object keys are unique). -/

abbrev VersionId := String
abbrev Label := String

/-- `Object.entries(response.VersionIdsToStages)` in iteration order. -/
abbrev LabelMap := List (VersionId × List Label)

/-- `const AWS_REQUIRED_LABELS = ['AWSCURRENT', 'AWSPREVIOUS']`. -/
def AWS_REQUIRED_LABELS : List Label := ["AWSCURRENT", "AWSPREVIOUS"]

def msPerDay : Int := 86400000

/-- ECMAScript DayFromYear. -/
def daysFromYear (y : Int) : Int :=
  365 * (y - 1970) + (y - 1969).fdiv 4 - (y - 1901).fdiv 100 + (y - 1601).fdiv 400

def isLeapYear (y : Int) : Bool :=
  (y.emod 4 == 0 && y.emod 100 != 0) || y.emod 400 == 0

/-- Cumulative day count at the start of month 0..11 in a non-leap year. -/
def monthStartDays : List Int := [0, 31, 59, 90, 120, 151, 181, 212, 243, 273, 304, 334]

def dayWithinYearAtMonthStart (mn : Nat) (leap : Bool) : Int :=
  monthStartDays.getD mn 0 + (if leap && decide (2 ≤ mn) then 1 else 0)

/-- ECMAScript MakeDay: month and day may be out of range and roll over. -/
def makeDay (y m d : Int) : Int :=
  let ym := y + m.fdiv 12
  let mn := (m.emod 12).toNat
  daysFromYear ym + dayWithinYearAtMonthStart mn (isLeapYear ym) + (d - 1)

/-- ECMAScript MakeDate/MakeTime: milliseconds for calendar fields. -/
def makeDateMillis (y m d h mi s ms : Int) : Int :=
  makeDay y m d * msPerDay + h * 3600000 + mi * 60000 + s * 1000 + ms

/-- `new Date(y, m, d, h, mi, s)`: years 0..99 are read as 1900 + y. -/
def jsDateMillis (y m d h mi s : Int) : Int :=
  let yr := if 0 ≤ y ∧ y ≤ 99 then 1900 + y else y
  makeDateMillis yr m d h mi s 0

/-- The local calendar reading of `new Date()` at planning time
    (year, 0-indexed month, day of month, time of day). -/
structure Clock where
  year : Int
  month : Int
  day : Int
  hour : Int
  minute : Int
  second : Int
  ms : Int
deriving DecidableEq, Repr

/-- The millisecond value of the planning-time clock. -/
def clockMillis (c : Clock) : Int :=
  makeDateMillis c.year c.month c.day c.hour c.minute c.second c.ms

/-- `const cutoffDate = new Date(); cutoffDate.setDate(cutoffDate.getDate() - keepDays);`
    `setDate` rewrites the day-of-month field and renormalizes. -/
def cutoffMillis (c : Clock) (keepDays : Int) : Int :=
  makeDateMillis c.year c.month (c.day - keepDays) c.hour c.minute c.second c.ms

/-- `function isTimestampLabel(label) { return /^\d{8}_\d{6}$/.test(label); }` -/
def isTimestampLabel (label : String) : Bool :=
  let cs := label.data
  cs.length == 15 && (cs.take 8).all Char.isDigit &&
    ((cs.drop 8).take 1 == ['_']) && (cs.drop 9).all Char.isDigit

/-- `parseInt` on an all-digit string. -/
def digitsToNat (cs : List Char) : Nat :=
  cs.foldl (fun acc c => acc * 10 + (c.toNat - 48)) 0

/-- The Date value built inside `parseTimestampLabel` once the regular
    expression has matched: fields are cut out of the label positionally,
    the month is decremented (JavaScript months are 0-indexed) and fed to
    the Date constructor without any range validation. -/
def tsValue (label : String) : Int :=
  let cs := label.data
  let dateStr := cs.take 8
  let timeStr := cs.drop 9
  jsDateMillis (digitsToNat (dateStr.take 4))
    ((digitsToNat ((dateStr.drop 4).take 2) : Int) - 1)
    (digitsToNat (dateStr.drop 6))
    (digitsToNat (timeStr.take 2))
    (digitsToNat ((timeStr.drop 2).take 2))
    (digitsToNat (timeStr.drop 4))

/-- `function parseTimestampLabel(label)`: `null` exactly when the regular
    expression `^(\d{8})_(\d{6})$` fails; otherwise the constructed Date. -/
def parseTimestampLabel (label : String) : Option Int :=
  if isTimestampLabel label then some (tsValue label) else none

/-- One element of the `timestampVersions` working array:
    `{ versionId, label, timestamp, allLabels }`. -/
structure TsEntry where
  versionId : VersionId
  label : Label
  timestamp : Int
  allLabels : List Label
deriving DecidableEq, Repr

/-- The inner loop body of the first pass: for one (non-reserved) version,
    one entry per timestamp label whose parse returned a Date
    (`if (timestamp) { timestampVersions.push({...}) }`). -/
def entriesOf (v : VersionId) (labels : List Label) : List TsEntry :=
  (labels.filter isTimestampLabel).filterMap fun l =>
    (parseTimestampLabel l).map fun ts => ⟨v, l, ts, labels⟩

/-- First pass of `identifyVersionsToCleanup`: collect the
    `timestampVersions` array, skipping versions that carry a reserved
    AWS label. -/
def timestampVersions : LabelMap → List TsEntry
  | [] => []
  | (v, labels) :: rest =>
    if "AWSCURRENT" ∈ labels ∨ "AWSPREVIOUS" ∈ labels then
      timestampVersions rest
    else
      entriesOf v labels ++ timestampVersions rest

/-- First pass of `identifyVersionsToCleanup`, second output: versions
    pushed onto `toDeleteVersions` because they carry no label at all
    (`else if (labels.length === 0)`). -/
def initialDeleteVersions : LabelMap → List VersionId
  | [] => []
  | (v, labels) :: rest =>
    if "AWSCURRENT" ∈ labels ∨ "AWSPREVIOUS" ∈ labels then
      initialDeleteVersions rest
    else if 0 < (labels.filter isTimestampLabel).length then
      initialDeleteVersions rest
    else if labels.length = 0 then
      v :: initialDeleteVersions rest
    else
      initialDeleteVersions rest

/-- One insertion step of the stable sort
    `timestampVersions.sort((a, b) => b.timestamp - a.timestamp)`:
    an element is placed before the first element it is not older than,
    so elements with equal timestamps keep their original order. -/
def insertDesc (x : TsEntry) : List TsEntry → List TsEntry
  | [] => [x]
  | y :: ys => if y.timestamp ≤ x.timestamp then x :: y :: ys else y :: insertDesc x ys

/-- Stable sort by parsed timestamp, newest first. -/
def sortByTimestampDesc (l : List TsEntry) : List TsEntry :=
  l.foldr insertDesc []

/-- `arr.slice(0, k)` — a negative bound counts from the end, clamped at 0. -/
def sliceTo (l : List α) (k : Int) : List α :=
  if 0 ≤ k then l.take k.toNat else l.take ((l.length : Int) + k).toNat

/-- `arr.slice(k)` — a negative start counts from the end, clamped at 0. -/
def sliceFrom (l : List α) (k : Int) : List α :=
  if 0 ≤ k then l.drop k.toNat else l.drop ((l.length : Int) + k).toNat

/-- The value returned by `identifyVersionsToCleanup`. -/
structure CleanupPlan where
  toRemoveLabels : List (VersionId × Label)
  toDeleteVersions : List VersionId
  versionsToKeep : Nat
  versionsToCleanup : Nat
deriving DecidableEq, Repr

/-- `function identifyVersionsToCleanup(versions, keepCount, keepDays, strict)`.
    `keepCount` and `keepDays` are `parseInt` results, hence `Int`; `now` is
    the wall clock the source reads with `new Date()` while planning. -/
def identifyVersionsToCleanup (versions : LabelMap) (keepCount keepDays : Int)
    (strict : Bool) (now : Clock) : CleanupPlan :=
  let sorted := sortByTimestampDesc (timestampVersions versions)
  let keepList := sliceTo sorted keepCount
  let cleanupList := sliceFrom sorted keepCount
  let finalCleanup :=
    if !strict && decide (0 < keepDays) then
      cleanupList.filter fun e => !decide (cutoffMillis now keepDays < e.timestamp)
    else
      cleanupList
  { toRemoveLabels := finalCleanup.map fun e => (e.versionId, e.label)
  , toDeleteVersions :=
      initialDeleteVersions versions ++
        finalCleanup.filterMap fun e =>
          if e.allLabels.filter (fun l =>
              decide (l ≠ e.label) && !decide (l ∈ AWS_REQUIRED_LABELS)) = [] then
            some e.versionId
          else
            none
  , versionsToKeep := keepList.length
  , versionsToCleanup := cleanupList.length }

/-- Applying a plan: remove every listed (version, label) pair from the
    label map (the store-side effect of the executor's
    `UpdateSecretVersionStage` calls). -/
def applyPlan (m : LabelMap) (plan : CleanupPlan) : LabelMap :=
  m.map fun p => (p.1, p.2.filter fun l => !decide ((p.1, l) ∈ plan.toRemoveLabels))

/-- Timestamp entries that remain after a plan is applied, i.e. the
    timestamp-labeled (version, label) pairs on non-reserved versions. -/
def timestampEntryCount (m : LabelMap) : Nat :=
  (timestampVersions m).length

/-- Sorted newest-first. -/
def SortedDesc (l : List TsEntry) : Prop :=
  l.Pairwise fun a b => b.timestamp ≤ a.timestamp

/-- The `finalVersionsToCleanup` list of `identifyVersionsToCleanup`: the
    candidates beyond `keepCount`, thinned by the days filter unless
    `strict` is set or `keepDays` is not positive. -/
def finalCleanupList (versions : LabelMap) (keepCount keepDays : Int)
    (strict : Bool) (now : Clock) : List TsEntry :=
  if !strict && decide (0 < keepDays) then
    (sliceFrom (sortByTimestampDesc (timestampVersions versions)) keepCount).filter
      fun e => !decide (cutoffMillis now keepDays < e.timestamp)
  else
    sliceFrom (sortByTimestampDesc (timestampVersions versions)) keepCount

/-- How one applied plan rewrites the `allLabels` field of a surviving
    entry of the original map. -/
def relabel (P : CleanupPlan) (e : TsEntry) : TsEntry :=
  { e with allLabels := e.allLabels.filter fun l => !decide ((e.versionId, l) ∈ P.toRemoveLabels) }

/-- A planning-time clock: 2025-07-09 12:00:00 local time. -/
def demoNow : Clock := ⟨2025, 6, 9, 12, 0, 0, 0⟩

/-- A later planning-time clock: 2026-07-09 12:00:00 local time. -/
def demoLater : Clock := ⟨2026, 6, 9, 12, 0, 0, 0⟩

/-- Twelve versions with timestamp labels one minute apart (all on
    2025-07-09, within two hours of `demoNow`), plus the versions holding
    `AWSCURRENT` and `AWSPREVIOUS`. -/
def demoMap : LabelMap :=
  [ ("v0", ["20250709_100000"]), ("v1", ["20250709_100100"])
  , ("v2", ["20250709_100200"]), ("v3", ["20250709_100300"])
  , ("v4", ["20250709_100400"]), ("v5", ["20250709_100500"])
  , ("v6", ["20250709_100600"]), ("v7", ["20250709_100700"])
  , ("v8", ["20250709_100800"]), ("v9", ["20250709_100900"])
  , ("v10", ["20250709_101000"]), ("v11", ["20250709_101100"])
  , ("vc", ["AWSCURRENT"]), ("vp", ["AWSPREVIOUS"]) ]

/-- A single version with no labels at all. -/
def ghostMap : LabelMap := [("ghost", [])]

/-- One old timestamp-labeled version (2020-01-01) next to the reserved
    ones, plus a version carrying only a foreign label. -/
def smallMap : LabelMap :=
  [ ("w0", ["20200101_000000"]) , ("wf", ["manual-backup"])
  , ("wc", ["AWSCURRENT"]) ]

/-- A map containing a version whose only label is dated in the far
    future (year 3000). -/
def futureMap : LabelMap := [("f0", ["30000101_000000"])]

/-- Two timestamp-labeled versions, for exercising negative keepCount. -/
def pairMap : LabelMap :=
  [ ("p0", ["20200101_000000"]), ("p1", ["20210101_000000"]) ]

/-- One version carrying exactly two timestamp labels and nothing else. -/
def twinMap : LabelMap := [("t0", ["20200101_000000", "20200102_000000"])]

/- ### Slice lemmas -/

theorem sliceTo_natCast (l : List α) (k : Nat) : sliceTo l (k : Int) = l.take k := by
  simp [sliceTo]

theorem sliceFrom_natCast (l : List α) (k : Nat) : sliceFrom l (k : Int) = l.drop k := by
  simp [sliceFrom]

theorem mem_of_mem_sliceFrom {l : List α} {k : Int} {a : α} (h : a ∈ sliceFrom l k) :
    a ∈ l := by
  unfold sliceFrom at h
  by_cases hk : 0 ≤ k <;> simp [hk] at h <;> exact List.mem_of_mem_drop h

/- ### Stable-sort lemmas -/

theorem insertDesc_perm (x : TsEntry) (s : List TsEntry) :
    List.Perm (insertDesc x s) (x :: s) := by
  induction s with
  | nil => simp [insertDesc]
  | cons y ys ih =>
    by_cases h : y.timestamp ≤ x.timestamp
    · simp [insertDesc, h]
    · simp only [insertDesc, if_neg h]
      exact (ih.cons y).trans (List.Perm.swap x y ys)

theorem sortByTimestampDesc_perm (l : List TsEntry) :
    List.Perm (sortByTimestampDesc l) l := by
  induction l with
  | nil => simp [sortByTimestampDesc]
  | cons a t ih =>
    have : sortByTimestampDesc (a :: t) = insertDesc a (sortByTimestampDesc t) := rfl
    rw [this]
    exact (insertDesc_perm a (sortByTimestampDesc t)).trans (ih.cons a)

theorem length_sortByTimestampDesc (l : List TsEntry) :
    (sortByTimestampDesc l).length = l.length :=
  (sortByTimestampDesc_perm l).length_eq

theorem mem_sortByTimestampDesc {l : List TsEntry} {a : TsEntry} :
    a ∈ sortByTimestampDesc l ↔ a ∈ l :=
  (sortByTimestampDesc_perm l).mem_iff

theorem sortedDesc_insertDesc {x : TsEntry} {s : List TsEntry} (hs : SortedDesc s) :
    SortedDesc (insertDesc x s) := by
  induction s with
  | nil => simp [insertDesc, SortedDesc]
  | cons y ys ih =>
    rcases List.pairwise_cons.mp hs with ⟨hy, hys⟩
    by_cases h : y.timestamp ≤ x.timestamp
    · simp only [insertDesc, if_pos h]
      refine List.pairwise_cons.mpr ⟨?_, hs⟩
      intro z hz
      rcases List.mem_cons.mp hz with rfl | hz2
      · exact h
      · exact le_trans (hy z hz2) h
    · simp only [insertDesc, if_neg h]
      refine List.pairwise_cons.mpr ⟨?_, ih hys⟩
      intro z hz
      rcases List.mem_cons.mp ((insertDesc_perm x ys).mem_iff.mp hz) with rfl | hz2
      · exact le_of_not_le h
      · exact hy z hz2

theorem sortedDesc_sortByTimestampDesc (l : List TsEntry) :
    SortedDesc (sortByTimestampDesc l) := by
  induction l with
  | nil => simp [sortByTimestampDesc, SortedDesc]
  | cons a t ih => exact sortedDesc_insertDesc ih

theorem insertDesc_of_forall_le {x : TsEntry} {s : List TsEntry}
    (h : ∀ z ∈ s, z.timestamp ≤ x.timestamp) : insertDesc x s = x :: s := by
  cases s with
  | nil => rfl
  | cons y ys => simp [insertDesc, h y (by simp)]

theorem filter_insertDesc (p : TsEntry → Bool) {x : TsEntry} {s : List TsEntry}
    (hs : SortedDesc s) :
    (insertDesc x s).filter p =
      if p x then insertDesc x (s.filter p) else s.filter p := by
  induction s with
  | nil => by_cases hx : p x <;> simp [insertDesc, hx]
  | cons y ys ih =>
    rcases List.pairwise_cons.mp hs with ⟨hy, hys⟩
    by_cases h : y.timestamp ≤ x.timestamp
    · simp only [insertDesc, if_pos h]
      by_cases hx : p x
      · by_cases hyp : p y
        · simp [List.filter_cons, hx, hyp, insertDesc, h]
        · have hall : ∀ z ∈ ys.filter p, z.timestamp ≤ x.timestamp := by
            intro z hz
            exact le_trans (hy z (List.mem_of_mem_filter hz)) h
          simp [List.filter_cons, hx, hyp, insertDesc_of_forall_le hall]
      · simp [List.filter_cons, hx]
    · simp only [insertDesc, if_neg h]
      by_cases hyp : p y
      · by_cases hx : p x
        · simp [List.filter_cons, hyp, ih hys, hx, insertDesc, h]
        · simp [List.filter_cons, hyp, ih hys, hx]
      · by_cases hx : p x <;> simp [List.filter_cons, hyp, ih hys, hx]

theorem sortByTimestampDesc_filter (p : TsEntry → Bool) (l : List TsEntry) :
    sortByTimestampDesc (l.filter p) = (sortByTimestampDesc l).filter p := by
  induction l with
  | nil => simp [sortByTimestampDesc]
  | cons a t ih =>
    have hrec : sortByTimestampDesc (a :: t) = insertDesc a (sortByTimestampDesc t) := rfl
    by_cases ha : p a
    · have : (a :: t).filter p = a :: t.filter p := by simp [List.filter_cons, ha]
      rw [this, hrec]
      have hl : sortByTimestampDesc (a :: t.filter p) =
          insertDesc a (sortByTimestampDesc (t.filter p)) := rfl
      rw [hl, ih, filter_insertDesc p (sortedDesc_sortByTimestampDesc t), if_pos ha]
    · have : (a :: t).filter p = t.filter p := by simp [List.filter_cons, ha]
      rw [this, hrec, ih,
        filter_insertDesc p (sortedDesc_sortByTimestampDesc t), if_neg (by simp [ha])]

theorem insertDesc_map {g : TsEntry → TsEntry}
    (hg : ∀ e, (g e).timestamp = e.timestamp) (x : TsEntry) (s : List TsEntry) :
    insertDesc (g x) (s.map g) = (insertDesc x s).map g := by
  induction s with
  | nil => simp [insertDesc]
  | cons y ys ih =>
    by_cases h : y.timestamp ≤ x.timestamp
    · simp [insertDesc, hg, h]
    · simp [insertDesc, hg, h, ih]

theorem sortByTimestampDesc_map {g : TsEntry → TsEntry}
    (hg : ∀ e, (g e).timestamp = e.timestamp) (l : List TsEntry) :
    sortByTimestampDesc (l.map g) = (sortByTimestampDesc l).map g := by
  induction l with
  | nil => simp [sortByTimestampDesc]
  | cons a t ih =>
    have h1 : sortByTimestampDesc (a :: t) = insertDesc a (sortByTimestampDesc t) := rfl
    have h2 : sortByTimestampDesc (g a :: t.map g) =
        insertDesc (g a) (sortByTimestampDesc (t.map g)) := rfl
    simp only [List.map_cons, h1, h2, ih, List.map]
    exact insertDesc_map hg a (sortByTimestampDesc t)

/- ### Parsing and entry-collection lemmas -/

theorem parseTimestampLabel_eq_some {l : Label} (h : isTimestampLabel l = true) :
    parseTimestampLabel l = some (tsValue l) := by
  simp [parseTimestampLabel, h]

theorem entriesOf_eq_map (v : VersionId) (labels : List Label) :
    entriesOf v labels =
      (labels.filter isTimestampLabel).map fun l => ⟨v, l, tsValue l, labels⟩ := by
  unfold entriesOf
  have h : ∀ xs : List Label, (∀ l ∈ xs, isTimestampLabel l = true) →
      (xs.filterMap fun l => (parseTimestampLabel l).map fun ts =>
        (⟨v, l, ts, labels⟩ : TsEntry)) =
        xs.map fun l => ⟨v, l, tsValue l, labels⟩ := by
    intro xs
    induction xs with
    | nil => intro _; rfl
    | cons a t ih =>
      intro hall
      have ha := hall a (by simp)
      simp [List.filterMap_cons, parseTimestampLabel_eq_some ha,
        ih fun l hl => hall l (by simp [hl])]
  exact h _ fun l hl => (List.mem_filter.mp hl).2

theorem mem_timestampVersions_elim {m : LabelMap} {e : TsEntry}
    (h : e ∈ timestampVersions m) :
    ∃ ls, (e.versionId, ls) ∈ m ∧
      ¬("AWSCURRENT" ∈ ls ∨ "AWSPREVIOUS" ∈ ls) ∧
      e.allLabels = ls ∧ e.label ∈ ls ∧ isTimestampLabel e.label = true ∧
      e.timestamp = tsValue e.label := by
  induction m with
  | nil => simp [timestampVersions] at h
  | cons p rest ih =>
    obtain ⟨v, labels⟩ := p
    by_cases hres : "AWSCURRENT" ∈ labels ∨ "AWSPREVIOUS" ∈ labels
    · rw [timestampVersions, if_pos hres] at h
      obtain ⟨ls, h1, h2, h3, h4, h5, h6⟩ := ih h
      exact ⟨ls, by simp [h1], h2, h3, h4, h5, h6⟩
    · rw [timestampVersions, if_neg hres] at h
      rcases List.mem_append.mp h with hchunk | hrest
      · rw [entriesOf_eq_map] at hchunk
        obtain ⟨l, hl, rfl⟩ := List.mem_map.mp hchunk
        have hl2 := List.mem_filter.mp hl
        exact ⟨labels, by simp, hres, rfl, hl2.1, hl2.2, rfl⟩
      · obtain ⟨ls, h1, h2, h3, h4, h5, h6⟩ := ih hrest
        exact ⟨ls, by simp [h1], h2, h3, h4, h5, h6⟩

theorem mem_timestampVersions_intro {m : LabelMap} {v : VersionId} {ls : List Label}
    {l : Label} (hm : (v, ls) ∈ m) (hres : ¬("AWSCURRENT" ∈ ls ∨ "AWSPREVIOUS" ∈ ls))
    (hl : l ∈ ls) (hts : isTimestampLabel l = true) :
    (⟨v, l, tsValue l, ls⟩ : TsEntry) ∈ timestampVersions m := by
  induction m with
  | nil => simp at hm
  | cons p rest ih =>
    rcases List.mem_cons.mp hm with heq | htl
    · obtain ⟨v2, ls2⟩ := p
      injection heq with h1 h2
      subst h1
      subst h2
      rw [timestampVersions, if_neg hres]
      refine List.mem_append.mpr (Or.inl ?_)
      rw [entriesOf_eq_map]
      exact List.mem_map.mpr ⟨l, List.mem_filter.mpr ⟨hl, hts⟩, rfl⟩
    · obtain ⟨v2, labels2⟩ := p
      by_cases hres2 : "AWSCURRENT" ∈ labels2 ∨ "AWSPREVIOUS" ∈ labels2
      · rw [timestampVersions, if_pos hres2]
        exact ih htl
      · rw [timestampVersions, if_neg hres2]
        exact List.mem_append.mpr (Or.inr (ih htl))

theorem mem_initialDeleteVersions_elim {m : LabelMap} {v : VersionId}
    (h : v ∈ initialDeleteVersions m) : ∃ ls, (v, ls) ∈ m ∧ ls = [] := by
  induction m with
  | nil => simp [initialDeleteVersions] at h
  | cons p rest ih =>
    obtain ⟨v2, labels⟩ := p
    by_cases hres : "AWSCURRENT" ∈ labels ∨ "AWSPREVIOUS" ∈ labels
    · rw [initialDeleteVersions, if_pos hres] at h
      obtain ⟨ls, h1, h2⟩ := ih h
      exact ⟨ls, by simp [h1], h2⟩
    · rw [initialDeleteVersions, if_neg hres] at h
      by_cases hcnt : 0 < (labels.filter isTimestampLabel).length
      · rw [if_pos hcnt] at h
        obtain ⟨ls, h1, h2⟩ := ih h
        exact ⟨ls, by simp [h1], h2⟩
      · rw [if_neg hcnt] at h
        by_cases hlen : labels.length = 0
        · rw [if_pos hlen] at h
          rcases List.mem_cons.mp h with rfl | htl
          · exact ⟨labels, by simp, List.length_eq_zero.mp hlen⟩
          · obtain ⟨ls, h1, h2⟩ := ih htl
            exact ⟨ls, by simp [h1], h2⟩
        · rw [if_neg hlen] at h
          obtain ⟨ls, h1, h2⟩ := ih h
          exact ⟨ls, by simp [h1], h2⟩

theorem mem_initialDeleteVersions_intro {m : LabelMap} {v : VersionId}
    (hm : (v, ([] : List Label)) ∈ m) : v ∈ initialDeleteVersions m := by
  induction m with
  | nil => simp at hm
  | cons p rest ih =>
    rcases List.mem_cons.mp hm with heq | htl
    · have hv : p.1 = v ∧ p.2 = [] := Prod.ext_iff.mp heq.symm
      obtain ⟨v2, labels⟩ := p
      obtain ⟨rfl, rfl⟩ := hv
      rw [initialDeleteVersions, if_neg (by simp), if_neg (by simp), if_pos (by simp)]
      exact List.mem_cons_self _ _
    · obtain ⟨v2, labels⟩ := p
      rw [initialDeleteVersions]
      by_cases hres : "AWSCURRENT" ∈ labels ∨ "AWSPREVIOUS" ∈ labels
      · rw [if_pos hres]; exact ih htl
      · rw [if_neg hres]
        by_cases hcnt : 0 < (labels.filter isTimestampLabel).length
        · rw [if_pos hcnt]; exact ih htl
        · rw [if_neg hcnt]
          by_cases hlen : labels.length = 0
          · rw [if_pos hlen]; exact List.mem_cons.mpr (Or.inr (ih htl))
          · rw [if_neg hlen]; exact ih htl

/-- A JavaScript object has unique keys: an association with a key that
    occurs once determines its value. -/
theorem assoc_value_unique {m : LabelMap} {v : VersionId} {a b : List Label}
    (hnd : (m.map Prod.fst).Nodup) (ha : (v, a) ∈ m) (hb : (v, b) ∈ m) : a = b := by
  induction m with
  | nil => simp at ha
  | cons p rest ih =>
    obtain ⟨v2, c⟩ := p
    rw [List.map_cons] at hnd
    have hnd2 := List.nodup_cons.mp hnd
    rcases List.mem_cons.mp ha with heqa | htla
    · injection heqa with e1 e2
      rcases List.mem_cons.mp hb with heqb | htlb
      · injection heqb with f1 f2
        rw [e2, f2]
      · exact absurd (e1 ▸ List.mem_map.mpr ⟨(v, b), htlb, rfl⟩) hnd2.1
    · rcases List.mem_cons.mp hb with heqb | htlb
      · injection heqb with f1 f2
        exact absurd (f1 ▸ List.mem_map.mpr ⟨(v, a), htla, rfl⟩) hnd2.1
      · exact ih hnd2.2 htla htlb

/-- `setDate(getDate() - keepDays)` subtracts exactly `keepDays` whole days
    from the clock value (MakeDay is linear in its day argument). -/
theorem cutoffMillis_eq (c : Clock) (k : Int) :
    cutoffMillis c k = clockMillis c - k * msPerDay := by
  unfold cutoffMillis clockMillis makeDateMillis makeDay
  ring

/- ### Plan-level lemmas -/

theorem identify_toRemoveLabels (m : LabelMap) (k d : Int) (s : Bool) (now : Clock) :
    (identifyVersionsToCleanup m k d s now).toRemoveLabels =
      (finalCleanupList m k d s now).map fun e => (e.versionId, e.label) := by
  unfold identifyVersionsToCleanup finalCleanupList
  by_cases hb : !s && decide (0 < d) <;> simp [hb]

theorem identify_toDeleteVersions (m : LabelMap) (k d : Int) (s : Bool) (now : Clock) :
    (identifyVersionsToCleanup m k d s now).toDeleteVersions =
      initialDeleteVersions m ++
        (finalCleanupList m k d s now).filterMap fun e =>
          if e.allLabels.filter (fun l =>
              decide (l ≠ e.label) && !decide (l ∈ AWS_REQUIRED_LABELS)) = [] then
            some e.versionId
          else
            none := by
  unfold identifyVersionsToCleanup finalCleanupList
  by_cases hb : !s && decide (0 < d) <;> simp [hb]

theorem mem_finalCleanupList_sub {m : LabelMap} {k d : Int} {s : Bool} {now : Clock}
    {e : TsEntry} (h : e ∈ finalCleanupList m k d s now) : e ∈ timestampVersions m := by
  unfold finalCleanupList at h
  by_cases hb : !s && decide (0 < d)
  · rw [if_pos hb] at h
    exact mem_sortByTimestampDesc.mp (mem_of_mem_sliceFrom (List.mem_of_mem_filter h))
  · rw [if_neg hb] at h
    exact mem_sortByTimestampDesc.mp (mem_of_mem_sliceFrom h)

theorem toRemove_isTimestampLabel {m : LabelMap} {k d : Int} {s : Bool} {now : Clock}
    {pr : VersionId × Label}
    (hpr : pr ∈ (identifyVersionsToCleanup m k d s now).toRemoveLabels) :
    isTimestampLabel pr.2 = true := by
  rw [identify_toRemoveLabels] at hpr
  obtain ⟨e, he, rfl⟩ := List.mem_map.mp hpr
  obtain ⟨ls, _, _, _, _, h5, _⟩ :=
    mem_timestampVersions_elim (mem_finalCleanupList_sub he)
  exact h5

theorem entriesOf_filter_keep (v : VersionId) (ls : List Label)
    (R : List (VersionId × Label)) :
    entriesOf v (ls.filter fun l => !decide ((v, l) ∈ R)) =
      ((entriesOf v ls).filter fun e => !decide ((e.versionId, e.label) ∈ R)).map
        fun e =>
          { e with allLabels := e.allLabels.filter fun l => !decide ((e.versionId, l) ∈ R) } := by
  rw [entriesOf_eq_map, entriesOf_eq_map, List.filter_map, List.map_map,
    List.filter_filter, List.filter_filter]
  rw [List.filter_congr (fun a _ => Bool.and_comm _ _)]
  rfl

theorem reserved_not_timestamp :
    isTimestampLabel "AWSCURRENT" = false ∧ isTimestampLabel "AWSPREVIOUS" = false := by
  decide

theorem timestampVersions_applyPlan (m : LabelMap) (P : CleanupPlan)
    (hts : ∀ pr ∈ P.toRemoveLabels, isTimestampLabel pr.2 = true) :
    timestampVersions (applyPlan m P) =
      ((timestampVersions m).filter fun e =>
        !decide ((e.versionId, e.label) ∈ P.toRemoveLabels)).map (relabel P) := by
  induction m with
  | nil => rfl
  | cons p rest ih =>
    obtain ⟨v, ls⟩ := p
    have happ : applyPlan ((v, ls) :: rest) P =
        (v, ls.filter fun l => !decide ((v, l) ∈ P.toRemoveLabels)) :: applyPlan rest P := rfl
    have hresmem : ∀ r : Label, isTimestampLabel r = false → r ∈ ls →
        r ∈ ls.filter fun l => !decide ((v, l) ∈ P.toRemoveLabels) := by
      intro r hr hrls
      refine List.mem_filter.mpr ⟨hrls, ?_⟩
      simp only [Bool.not_eq_eq_eq_not, Bool.not_true, decide_eq_false_iff_not]
      intro hmem
      exact absurd (hts (v, r) hmem) (by simp [hr])
    have hres_iff :
        ("AWSCURRENT" ∈ ls.filter (fun l => !decide ((v, l) ∈ P.toRemoveLabels)) ∨
          "AWSPREVIOUS" ∈ ls.filter (fun l => !decide ((v, l) ∈ P.toRemoveLabels))) ↔
        ("AWSCURRENT" ∈ ls ∨ "AWSPREVIOUS" ∈ ls) := by
      constructor
      · rintro (h | h)
        · exact Or.inl (List.mem_of_mem_filter h)
        · exact Or.inr (List.mem_of_mem_filter h)
      · rintro (h | h)
        · exact Or.inl (hresmem _ reserved_not_timestamp.1 h)
        · exact Or.inr (hresmem _ reserved_not_timestamp.2 h)
    by_cases hres : "AWSCURRENT" ∈ ls ∨ "AWSPREVIOUS" ∈ ls
    · rw [happ, timestampVersions, if_pos (hres_iff.mpr hres), ih,
        timestampVersions, if_pos hres]
    · rw [happ, timestampVersions, if_neg (fun hc => hres (hres_iff.mp hc)), ih,
        timestampVersions, if_neg hres, List.filter_append, List.map_append,
        entriesOf_filter_keep v ls P.toRemoveLabels]
      rfl

/-- C6 amended: label-removal idempotence — re-running the planner with
the same policy (non-negative keepCount) and the same clock on the label
map that results from applying a computed plan yields a plan whose
`toRemoveLabels` is empty: no removed label ever reappears as a removal
candidate and label removals cannot oscillate.  (The plan as a whole is
not empty or strictly smaller in general: `toDeleteVersions` re-reports
versions that are, or have just become, unlabeled.) -/
theorem replan_toRemove_nil (m : LabelMap) (k : Nat) (d : Int) (s : Bool) (now : Clock) :
    (identifyVersionsToCleanup (applyPlan m (identifyVersionsToCleanup m (k : Int) d s now))
      (k : Int) d s now).toRemoveLabels = [] := by
  rw [identify_toRemoveLabels]
  suffices h : finalCleanupList
      (applyPlan m (identifyVersionsToCleanup m (k : Int) d s now)) (k : Int) d s now = [] by
    rw [h]; rfl
  set P := identifyVersionsToCleanup m (k : Int) d s now with hP
  set E := timestampVersions m with hE
  set S := sortByTimestampDesc E with hS
  set pe := fun e : TsEntry => !decide ((e.versionId, e.label) ∈ P.toRemoveLabels) with hpe
  have hg : ∀ e, (relabel P e).timestamp = e.timestamp := fun e => rfl
  have hE2 : timestampVersions (applyPlan m P) = (E.filter pe).map (relabel P) :=
    timestampVersions_applyPlan m P fun pr h => toRemove_isTimestampLabel h
  have hsorted2 : sortByTimestampDesc (timestampVersions (applyPlan m P)) =
      (S.filter pe).map (relabel P) := by
    rw [hE2, sortByTimestampDesc_map hg, hS, sortByTimestampDesc_filter]
  have hAlen : ((S.take k).filter pe).length ≤ k :=
    le_trans (List.length_filter_le _ _) (by simp [List.length_take])
  have hsplit : S.filter pe = (S.take k).filter pe ++ (S.drop k).filter pe := by
    conv_lhs => rw [← List.take_append_drop k S]
    rw [List.filter_append]
  have hdrop : ∀ e ∈ (S.filter pe).drop k, e ∈ (S.drop k).filter pe := by
    intro e he
    rw [hsplit, List.drop_append_eq_append_drop, List.drop_eq_nil_of_le hAlen,
      List.nil_append] at he
    exact List.mem_of_mem_drop he
  by_cases hb : !s && decide (0 < d)
  · have hR : P.toRemoveLabels =
        ((S.drop k).filter fun e => !decide (cutoffMillis now d < e.timestamp)).map
          fun e => (e.versionId, e.label) := by
      rw [hP, identify_toRemoveLabels]
      unfold finalCleanupList
      rw [if_pos hb, sliceFrom_natCast]
    have hBrecent : ∀ e ∈ (S.drop k).filter pe,
        decide (cutoffMillis now d < e.timestamp) = true := by
      intro e he
      obtain ⟨heS, hepe⟩ := List.mem_filter.mp he
      by_contra hnot
      have hbad : (!decide (cutoffMillis now d < e.timestamp)) = true := by
        simp only [Bool.not_eq_true] at hnot
        simp [hnot]
      have hmem : (e.versionId, e.label) ∈ P.toRemoveLabels := by
        rw [hR]
        exact List.mem_map.mpr ⟨e, List.mem_filter.mpr ⟨heS, hbad⟩, rfl⟩
      rw [hpe] at hepe
      simp [hmem] at hepe
    unfold finalCleanupList
    rw [if_pos hb, hsorted2, sliceFrom_natCast, ← List.map_drop]
    refine List.filter_eq_nil_iff.mpr ?_
    intro x hx
    obtain ⟨e, he, rfl⟩ := List.mem_map.mp hx
    have hrec := hBrecent e (hdrop e he)
    simp [relabel, hrec]
  · have hR : P.toRemoveLabels = (S.drop k).map fun e => (e.versionId, e.label) := by
      rw [hP, identify_toRemoveLabels]
      unfold finalCleanupList
      rw [if_neg hb, sliceFrom_natCast]
    have hBnil : (S.drop k).filter pe = [] := by
      refine List.filter_eq_nil_iff.mpr ?_
      intro e he
      have hmem : (e.versionId, e.label) ∈ P.toRemoveLabels := by
        rw [hR]
        exact List.mem_map.mpr ⟨e, he, rfl⟩
      rw [hpe]
      simp [hmem]
    unfold finalCleanupList
    rw [if_neg hb, hsorted2, sliceFrom_natCast, ← List.map_drop, hsplit, hBnil,
      List.append_nil, List.drop_eq_nil_of_le hAlen, List.map_nil]

theorem nodup_entry_pairs (m : LabelMap) (hkeys : (m.map Prod.fst).Nodup)
    (hlabels : ∀ p ∈ m, (Prod.snd p).Nodup) :
    ((timestampVersions m).map fun e => (e.versionId, e.label)).Nodup := by
  induction m with
  | nil => simp [timestampVersions]
  | cons p rest ih =>
    obtain ⟨v, ls⟩ := p
    rw [List.map_cons] at hkeys
    have hk2 := List.nodup_cons.mp hkeys
    have hls : ls.Nodup := hlabels (v, ls) (by simp)
    have hrest := ih hk2.2 fun q hq => hlabels q (by simp [hq])
    by_cases hres : "AWSCURRENT" ∈ ls ∨ "AWSPREVIOUS" ∈ ls
    · rw [timestampVersions, if_pos hres]
      exact hrest
    · rw [timestampVersions, if_neg hres, List.map_append]
      refine List.Nodup.append ?_ hrest ?_
      · rw [entriesOf_eq_map, List.map_map]
        exact List.Nodup.map (fun a b h => (Prod.mk.injEq .. ▸ h : _ ∧ _).2)
          (hls.filter _)
      · intro x hx1 hx2
        rw [entriesOf_eq_map, List.map_map] at hx1
        obtain ⟨l, _, rfl⟩ := List.mem_map.mp hx1
        obtain ⟨e, he, hpe⟩ := List.mem_map.mp hx2
        obtain ⟨ls2, hmem, _, _, _, _, _⟩ := mem_timestampVersions_elim he
        apply hk2.1
        have hv : e.versionId = v := congrArg Prod.fst hpe
        exact List.mem_map.mpr ⟨(e.versionId, ls2), hmem, hv⟩

theorem strict_plan_removes_tail (m : LabelMap) (k : Nat) (d : Int) (now : Clock) :
    (identifyVersionsToCleanup m (k : Int) d true now).toRemoveLabels =
      ((sortByTimestampDesc (timestampVersions m)).drop k).map
        fun e => (e.versionId, e.label) := by
  rw [identify_toRemoveLabels]
  unfold finalCleanupList
  rw [if_neg (by simp), sliceFrom_natCast]

theorem strict_apply_count (m : LabelMap) (k : Nat) (d : Int) (now : Clock)
    (hkeys : (m.map Prod.fst).Nodup) (hlabels : ∀ p ∈ m, (Prod.snd p).Nodup) :
    timestampEntryCount (applyPlan m (identifyVersionsToCleanup m (k : Int) d true now)) =
      min k (timestampEntryCount m) := by
  set P := identifyVersionsToCleanup m (k : Int) d true now with hP
  set E := timestampVersions m with hE
  set S := sortByTimestampDesc E with hS
  set pe := fun e : TsEntry => !decide ((e.versionId, e.label) ∈ P.toRemoveLabels) with hpe
  have hR : P.toRemoveLabels = (S.drop k).map fun e => (e.versionId, e.label) :=
    strict_plan_removes_tail m k d now
  have hE2 : timestampVersions (applyPlan m P) = (E.filter pe).map (relabel P) :=
    timestampVersions_applyPlan m P fun pr h => toRemove_isTimestampLabel h
  have hperm : List.Perm (S.filter pe) (E.filter pe) :=
    (sortByTimestampDesc_perm E).filter pe
  have hpairs : (S.map fun e => (e.versionId, e.label)).Nodup :=
    (((sortByTimestampDesc_perm E).map _).nodup_iff).mpr
      (nodup_entry_pairs m hkeys hlabels)
  have hBnil : (S.drop k).filter pe = [] := by
    refine List.filter_eq_nil_iff.mpr ?_
    intro e he
    have hmem : (e.versionId, e.label) ∈ P.toRemoveLabels := by
      rw [hR]
      exact List.mem_map.mpr ⟨e, he, rfl⟩
    rw [hpe]
    simp [hmem]
  have hAfull : (S.take k).filter pe = S.take k := by
    refine List.filter_eq_self.mpr ?_
    intro e he
    rw [hpe]
    simp only [Bool.not_eq_true', decide_eq_false_iff_not]
    intro hmem
    rw [hR] at hmem
    obtain ⟨e2, he2, hpair⟩ := List.mem_map.mp hmem
    have hdisj : List.Disjoint ((S.take k).map fun e => (e.versionId, e.label))
        ((S.drop k).map fun e => (e.versionId, e.label)) := by
      have := hpairs
      rw [← List.take_append_drop k S, List.map_append] at this
      exact (List.nodup_append.mp this).2.2
    exact hdisj (List.mem_map.mpr ⟨e, he, rfl⟩) (List.mem_map.mpr ⟨e2, he2, hpair⟩)
  have hsplit : S.filter pe = S.take k := by
    conv_lhs => rw [← List.take_append_drop k S]
    rw [List.filter_append, hBnil, hAfull, List.append_nil]
  unfold timestampEntryCount
  rw [hE2, List.length_map, ← hperm.length_eq, hsplit, List.length_take,
    ← hE, length_sortByTimestampDesc]

theorem mem_extraDeletes_elim {m : LabelMap} {k d : Int} {s : Bool} {now : Clock}
    {v : VersionId}
    (hext : v ∈ (finalCleanupList m k d s now).filterMap fun e =>
      if e.allLabels.filter (fun l =>
          decide (l ≠ e.label) && !decide (l ∈ AWS_REQUIRED_LABELS)) = [] then
        some e.versionId
      else
        none) :
    ∃ e ∈ finalCleanupList m k d s now, e.versionId = v ∧
      e.allLabels.filter (fun l =>
        decide (l ≠ e.label) && !decide (l ∈ AWS_REQUIRED_LABELS)) = [] := by
  obtain ⟨e, he, hsome⟩ := List.mem_filterMap.mp hext
  by_cases hc : e.allLabels.filter (fun l =>
      decide (l ≠ e.label) && !decide (l ∈ AWS_REQUIRED_LABELS)) = []
  · rw [if_pos hc] at hsome
    exact ⟨e, he, Option.some.inj hsome, hc⟩
  · rw [if_neg hc] at hsome
    exact absurd hsome (by simp)

/-- C10: a label matching the lexical timestamp pattern (8 digits,
underscore, 6 digits) always parses to a Date value — the parser performs
no calendar-range validation, out-of-range month/day fields roll over —
so the failed-parse guard in the candidate-collection loop is
unreachable, and every pattern-matching label of a non-reserved version
becomes a cleanup-candidate entry. -/
theorem timestamp_parse_total (m : LabelMap) (v : VersionId) (ls : List Label)
    (l : Label) (hl : isTimestampLabel l = true) (hm : (v, ls) ∈ m)
    (hcur : "AWSCURRENT" ∉ ls) (hprev : "AWSPREVIOUS" ∉ ls) (hin : l ∈ ls) :
    parseTimestampLabel l = some (tsValue l) ∧
      (⟨v, l, tsValue l, ls⟩ : TsEntry) ∈ timestampVersions m :=
  ⟨parseTimestampLabel_eq_some hl,
    mem_timestampVersions_intro hm (not_or.mpr ⟨hcur, hprev⟩) hin hl⟩

/-- Witness for C10: month 13, day 40 — a calendar-impossible label that
still parses (rolling over to 2026-02-09). -/
theorem timestamp_parse_total_witness :
    isTimestampLabel "20251340_000000" = true ∧
      (parseTimestampLabel "20251340_000000" = some (tsValue "20251340_000000") ∧
        (⟨"x", "20251340_000000", tsValue "20251340_000000", ["20251340_000000"]⟩ : TsEntry) ∈
          timestampVersions [("x", ["20251340_000000"])]) :=
  ⟨by decide,
    timestamp_parse_total [("x", ["20251340_000000"])] "x" ["20251340_000000"]
      "20251340_000000" (by decide) (by decide) (by decide) (by decide) (by decide)⟩

/-- C5: a version with an empty label set is reported in
`toDeleteVersions` (the spec's `versionsBecomingUnlabeled`) on every
planning call, for every keepCount, keepDays, strict flag and clock —
re-running the planner on the same map reproduces the report. -/
theorem zero_label_always_reported (m : LabelMap) (k d : Int) (s : Bool) (now : Clock)
    (v : VersionId) (hm : (v, ([] : List Label)) ∈ m) :
    v ∈ (identifyVersionsToCleanup m k d s now).toDeleteVersions := by
  rw [identify_toDeleteVersions]
  exact List.mem_append.mpr (Or.inl (mem_initialDeleteVersions_intro hm))

/-- Witness for C5 on a concrete one-version map. -/
theorem zero_label_always_reported_witness :
    ("ghost", ([] : List Label)) ∈ ghostMap ∧
      "ghost" ∈ (identifyVersionsToCleanup ghostMap 10 7 false demoNow).toDeleteVersions :=
  ⟨by decide, zero_label_always_reported ghostMap 10 7 false demoNow "ghost" (by decide)⟩

/-- C1: reserved-label safety — in a label map with unique version ids, a
version whose labels contain AWSCURRENT or AWSPREVIOUS never appears in
`toRemoveLabels` (paired with any label) nor in `toDeleteVersions`, for
every retention policy (including keepCount 0) and clock, even when the
version also carries timestamp labels. -/
theorem reserved_label_safety (m : LabelMap) (k d : Int) (s : Bool) (now : Clock)
    (v : VersionId) (ls : List Label) (l : Label)
    (hkeys : (m.map Prod.fst).Nodup) (hm : (v, ls) ∈ m)
    (hres : "AWSCURRENT" ∈ ls ∨ "AWSPREVIOUS" ∈ ls) :
    (v, l) ∉ (identifyVersionsToCleanup m k d s now).toRemoveLabels ∧
      v ∉ (identifyVersionsToCleanup m k d s now).toDeleteVersions := by
  constructor
  · intro hmem
    rw [identify_toRemoveLabels] at hmem
    obtain ⟨e, he, hpair⟩ := List.mem_map.mp hmem
    obtain ⟨ls2, hmem2, hres2, _, _, _, _⟩ :=
      mem_timestampVersions_elim (mem_finalCleanupList_sub he)
    have hv : e.versionId = v := congrArg Prod.fst hpair
    rw [hv] at hmem2
    rw [assoc_value_unique hkeys hmem2 hm] at hres2
    exact hres2 hres
  · intro hmem
    rw [identify_toDeleteVersions] at hmem
    rcases List.mem_append.mp hmem with hini | hext
    · obtain ⟨ls2, hmem2, hnil⟩ := mem_initialDeleteVersions_elim hini
      have hls : ls = [] := (assoc_value_unique hkeys hm hmem2).trans hnil
      rcases hres with h | h <;> (rw [hls] at h; exact absurd h (List.not_mem_nil _))
    · obtain ⟨e, he, hv, _⟩ := mem_extraDeletes_elim hext
      obtain ⟨ls2, hmem2, hres2, _, _, _, _⟩ :=
        mem_timestampVersions_elim (mem_finalCleanupList_sub he)
      rw [hv] at hmem2
      rw [assoc_value_unique hkeys hmem2 hm] at hres2
      exact hres2 hres

/-- Witness for C1: the AWSCURRENT-holding version of the demo map under
keepCount 0, strict. -/
theorem reserved_label_safety_witness :
    (demoMap.map Prod.fst).Nodup ∧ ("vc", ["AWSCURRENT"]) ∈ demoMap ∧
      (("vc", "20250709_100000") ∉
          (identifyVersionsToCleanup demoMap 0 7 true demoNow).toRemoveLabels ∧
        "vc" ∉ (identifyVersionsToCleanup demoMap 0 7 true demoNow).toDeleteVersions) :=
  ⟨by decide, by decide,
    reserved_label_safety demoMap 0 7 true demoNow "vc" ["AWSCURRENT"] "20250709_100000"
      (by decide) (by decide) (Or.inl (by decide))⟩

theorem timestampLabel_not_reserved {x : Label} (hx : isTimestampLabel x = true) :
    x ∉ AWS_REQUIRED_LABELS := by
  intro hmem
  have hor : x = "AWSCURRENT" ∨ x = "AWSPREVIOUS" := by
    simpa [AWS_REQUIRED_LABELS] using hmem
  rcases hor with rfl | rfl <;> exact absurd hx (by decide)

/-- C4: foreign-label isolation — every pair of `toRemoveLabels` carries a
pattern-matching timestamp label, so a label that does not match the
timestamp pattern (and in particular a non-reserved foreign label) never
appears there under any policy; and, with unique version ids, a version
whose non-empty label set is entirely foreign (no timestamp pattern, no
reserved label) appears neither in `toRemoveLabels` nor in
`toDeleteVersions`. -/
theorem foreign_label_isolation (m : LabelMap) (k d : Int) (s : Bool) (now : Clock)
    (w : VersionId) (lab : Label) (v : VersionId) (ls : List Label) (l2 : Label)
    (hkeys : (m.map Prod.fst).Nodup) (hlab : isTimestampLabel lab = false)
    (hm : (v, ls) ∈ m) (hne : ls ≠ [])
    (hforeign : ∀ x ∈ ls, isTimestampLabel x = false ∧ x ∉ AWS_REQUIRED_LABELS) :
    (w, lab) ∉ (identifyVersionsToCleanup m k d s now).toRemoveLabels ∧
      (v, l2) ∉ (identifyVersionsToCleanup m k d s now).toRemoveLabels ∧
      v ∉ (identifyVersionsToCleanup m k d s now).toDeleteVersions := by
  refine ⟨?_, ?_, ?_⟩
  · intro hmem
    exact absurd (toRemove_isTimestampLabel hmem) (by simp [hlab])
  · intro hmem
    rw [identify_toRemoveLabels] at hmem
    obtain ⟨e, he, hpair⟩ := List.mem_map.mp hmem
    obtain ⟨ls2, hmem2, _, _, hlabmem, hts, _⟩ :=
      mem_timestampVersions_elim (mem_finalCleanupList_sub he)
    have hv : e.versionId = v := congrArg Prod.fst hpair
    rw [hv] at hmem2
    rw [assoc_value_unique hkeys hmem2 hm] at hlabmem
    exact absurd hts (by simp [(hforeign e.label hlabmem).1])
  · intro hmem
    rw [identify_toDeleteVersions] at hmem
    rcases List.mem_append.mp hmem with hini | hext
    · obtain ⟨ls2, hmem2, hnil⟩ := mem_initialDeleteVersions_elim hini
      exact hne ((assoc_value_unique hkeys hm hmem2).trans hnil)
    · obtain ⟨e, he, hv, _⟩ := mem_extraDeletes_elim hext
      obtain ⟨ls2, hmem2, _, _, hlabmem, hts, _⟩ :=
        mem_timestampVersions_elim (mem_finalCleanupList_sub he)
      rw [hv] at hmem2
      rw [assoc_value_unique hkeys hmem2 hm] at hlabmem
      exact absurd hts (by simp [(hforeign e.label hlabmem).1])

/-- Witness for C4 on a map holding a foreign-only version, under a
policy that does remove the old timestamp label of another version. -/
theorem foreign_label_isolation_witness :
    (smallMap.map Prod.fst).Nodup ∧ ("wf", ["manual-backup"]) ∈ smallMap ∧
      (("w0", "manual-backup") ∉
          (identifyVersionsToCleanup smallMap 0 7 true demoLater).toRemoveLabels ∧
        ("wf", "20200101_000000") ∉
          (identifyVersionsToCleanup smallMap 0 7 true demoLater).toRemoveLabels ∧
        "wf" ∉ (identifyVersionsToCleanup smallMap 0 7 true demoLater).toDeleteVersions) :=
  ⟨by decide, by decide,
    foreign_label_isolation smallMap 0 7 true demoLater "w0" "manual-backup" "wf"
      ["manual-backup"] "20200101_000000" (by decide) (by decide) (by decide)
      (by decide) (by decide)⟩

/-- C9: per-label unlabeled recomputation — with unique version ids, a
version carrying exactly two distinct timestamp labels and nothing else
is not reported in `toDeleteVersions`, even when both labels are selected
for removal in the same plan: each removal checks the remaining labels
against the version's original label set minus that single label only,
although applying the full plan leaves the version with zero labels. -/
theorem twin_label_not_reported (m : LabelMap) (k d : Int) (s : Bool) (now : Clock)
    (v : VersionId) (t1 t2 : Label)
    (hkeys : (m.map Prod.fst).Nodup) (hm : (v, [t1, t2]) ∈ m) (hne : t1 ≠ t2)
    (ht1 : isTimestampLabel t1 = true) (ht2 : isTimestampLabel t2 = true)
    (hr1 : (v, t1) ∈ (identifyVersionsToCleanup m k d s now).toRemoveLabels)
    (hr2 : (v, t2) ∈ (identifyVersionsToCleanup m k d s now).toRemoveLabels) :
    v ∉ (identifyVersionsToCleanup m k d s now).toDeleteVersions := by
  intro hmem
  rw [identify_toDeleteVersions] at hmem
  rcases List.mem_append.mp hmem with hini | hext
  · obtain ⟨ls2, hmem2, hnil⟩ := mem_initialDeleteVersions_elim hini
    have : [t1, t2] = ([] : List Label) :=
      (assoc_value_unique hkeys hm hmem2).trans hnil
    simp at this
  · obtain ⟨e, he, hv, hempty⟩ := mem_extraDeletes_elim hext
    obtain ⟨ls2, hmem2, _, hall, hlabmem, _, _⟩ :=
      mem_timestampVersions_elim (mem_finalCleanupList_sub he)
    rw [hv] at hmem2
    have hls : ls2 = [t1, t2] := assoc_value_unique hkeys hmem2 hm
    rw [hall, hls] at hempty
    rw [hls] at hlabmem
    rcases (by simpa using hlabmem : e.label = t1 ∨ e.label = t2) with hl | hl
    · have ht2k : t2 ∈ [t1, t2].filter fun l =>
          decide (l ≠ e.label) && !decide (l ∈ AWS_REQUIRED_LABELS) := by
        refine List.mem_filter.mpr ⟨by simp, ?_⟩
        rw [hl, decide_eq_true hne.symm,
          decide_eq_false (timestampLabel_not_reserved ht2)]
        rfl
      rw [hempty] at ht2k
      exact absurd ht2k (List.not_mem_nil _)
    · have ht1k : t1 ∈ [t1, t2].filter fun l =>
          decide (l ≠ e.label) && !decide (l ∈ AWS_REQUIRED_LABELS) := by
        refine List.mem_filter.mpr ⟨by simp, ?_⟩
        rw [hl, decide_eq_true hne,
          decide_eq_false (timestampLabel_not_reserved ht1)]
        rfl
      rw [hempty] at ht1k
      exact absurd ht1k (List.not_mem_nil _)

/-- Witness for C9: both labels of the twin-labeled version are removed
under keepCount 0 strict, yet the version is not reported deletable. -/
theorem twin_label_not_reported_witness :
    ("t0", "20200101_000000") ∈
        (identifyVersionsToCleanup twinMap 0 7 true demoNow).toRemoveLabels ∧
      ("t0", "20200102_000000") ∈
        (identifyVersionsToCleanup twinMap 0 7 true demoNow).toRemoveLabels ∧
      "t0" ∉ (identifyVersionsToCleanup twinMap 0 7 true demoNow).toDeleteVersions :=
  ⟨by decide, by decide,
    twin_label_not_reported twinMap 0 7 true demoNow "t0" "20200101_000000"
      "20200102_000000" (by decide) (by decide) (by decide) (by decide) (by decide)
      (by decide) (by decide)⟩

/-- C2: strict count invariant — with unique version ids and duplicate-free
label sets, a strict-mode plan removes exactly the (version, label)
timestamp entries beyond the keepCount newest of the
sorted-by-parsed-timestamp-descending candidate list (keepDays ignored),
and after applying the plan the number of remaining timestamp-labeled
entries on non-reserved versions is min(keepCount, original candidate
count). -/
theorem strict_count_invariant (m : LabelMap) (k : Nat) (d : Int) (now : Clock)
    (hkeys : (m.map Prod.fst).Nodup) (hlabels : ∀ p ∈ m, (Prod.snd p).Nodup) :
    (identifyVersionsToCleanup m (k : Int) d true now).toRemoveLabels =
      ((sortByTimestampDesc (timestampVersions m)).drop k).map
        (fun e => (e.versionId, e.label)) ∧
      timestampEntryCount
          (applyPlan m (identifyVersionsToCleanup m (k : Int) d true now)) =
        min k (timestampEntryCount m) :=
  ⟨strict_plan_removes_tail m k d now, strict_apply_count m k d now hkeys hlabels⟩

/-- Witness for C2: the 12-candidate demo map under keepCount 5, keepDays
7, strict — exactly 7 labels removed, the 7 oldest, and 5 entries remain. -/
theorem strict_count_invariant_witness :
    (demoMap.map Prod.fst).Nodup ∧
      (identifyVersionsToCleanup demoMap ((5 : Nat) : Int) 7 true demoNow).toRemoveLabels.length = 7 ∧
      timestampEntryCount demoMap = 12 ∧
      ((identifyVersionsToCleanup demoMap ((5 : Nat) : Int) 7 true demoNow).toRemoveLabels =
          ((sortByTimestampDesc (timestampVersions demoMap)).drop 5).map
            (fun e => (e.versionId, e.label)) ∧
        timestampEntryCount (applyPlan demoMap
            (identifyVersionsToCleanup demoMap ((5 : Nat) : Int) 7 true demoNow)) =
          min 5 (timestampEntryCount demoMap)) :=
  ⟨by decide, by decide, by decide,
    strict_count_invariant demoMap 5 7 demoNow (by decide) (by decide)⟩

/-- Counterexample to C6 as stated: for the map holding one unlabeled
version, the plan recomputed from the applied label map equals the first
plan — it is neither empty nor strictly smaller, because the zero-label
version is re-reported in `toDeleteVersions` on every call. -/
theorem replan_not_smaller_counterexample :
    identifyVersionsToCleanup (applyPlan ghostMap
        (identifyVersionsToCleanup ghostMap 5 7 false demoNow)) 5 7 false demoNow =
      identifyVersionsToCleanup ghostMap 5 7 false demoNow ∧
      (identifyVersionsToCleanup ghostMap 5 7 false demoNow).toDeleteVersions ≠ [] := by
  decide

/-- Counterexample to C3 as stated: the claim quantifies over every policy
with strict = false, but with keepDays = 0 the days filter is skipped
entirely, so a candidate dated strictly after now − 0 days (a
future-dated label) is removed anyway. -/
theorem days_exemption_counterexample :
    ("f0", "30000101_000000") ∈
        (identifyVersionsToCleanup futureMap 0 0 false demoNow).toRemoveLabels ∧
      parseTimestampLabel "30000101_000000" = some (tsValue "30000101_000000") ∧
      clockMillis demoNow - 0 * msPerDay < tsValue "30000101_000000" := by
  decide

/-- C3 amended: days exemption — when strict = false and keepDays > 0 (with
keepDays = 0 the filter is disabled), no (version, label) pair whose
parsed timestamp lies strictly after now − keepDays days ever appears in
`toRemoveLabels`: every removed label's timestamp is at most the cutoff.
Consequently the 12-recent-candidate scenario yields an empty
`toRemoveLabels` despite exceeding keepCount. -/
theorem days_exemption (m : LabelMap) (k d : Int) (now : Clock) (v : VersionId)
    (l : Label) (t : Int) (hd : 0 < d)
    (hmem : (v, l) ∈ (identifyVersionsToCleanup m k d false now).toRemoveLabels)
    (hp : parseTimestampLabel l = some t) :
    t ≤ clockMillis now - d * msPerDay := by
  rw [identify_toRemoveLabels] at hmem
  obtain ⟨e, he, hpair⟩ := List.mem_map.mp hmem
  have hb : (!false && decide (0 < d)) = true := by simp [hd]
  unfold finalCleanupList at he
  rw [if_pos hb] at he
  obtain ⟨heC, hts⟩ := List.mem_filter.mp he
  have hle : e.timestamp ≤ cutoffMillis now d := by
    simp only [Bool.not_eq_true', decide_eq_false_iff_not, not_lt] at hts
    exact hts
  obtain ⟨ls2, _, _, _, _, hts2, htv⟩ := mem_timestampVersions_elim
    (mem_sortByTimestampDesc.mp (mem_of_mem_sliceFrom heC))
  have hl : e.label = l := congrArg Prod.snd hpair
  have hte : t = e.timestamp := by
    rw [← hl, parseTimestampLabel_eq_some hts2] at hp
    rw [htv]
    exact (Option.some.inj hp).symm
  rw [hte, ← cutoffMillis_eq]
  exact hle

/-- Witness for C3 at a removed old label: its timestamp is below the
cutoff. -/
theorem days_exemption_witness :
    (0 : Int) < 7 ∧
      ("w0", "20200101_000000") ∈
        (identifyVersionsToCleanup smallMap 0 7 false demoLater).toRemoveLabels ∧
      parseTimestampLabel "20200101_000000" = some (tsValue "20200101_000000") ∧
      tsValue "20200101_000000" ≤ clockMillis demoLater - 7 * msPerDay :=
  ⟨by decide, by decide, by decide,
    days_exemption smallMap 0 7 demoLater "w0" "20200101_000000"
      (tsValue "20200101_000000") (by decide) (by decide) (by decide)⟩

/-- Counterexample to C7 as stated: a negative keepCount is not rejected
before planning and produces no validation failure — the planner runs and
returns an ordinary plan (here keepCount = −1 removes the oldest of two
timestamp labels). -/
theorem no_validation_counterexample :
    identifyVersionsToCleanup pairMap (-1) 7 true demoNow =
      ⟨[("p0", "20200101_000000")], ["p0"], 1, 1⟩ := by
  decide

theorem identify_congr_slices (m : LabelMap) (k1 k2 d : Int) (s : Bool) (now : Clock)
    (h1 : sliceTo (sortByTimestampDesc (timestampVersions m)) k1 =
      sliceTo (sortByTimestampDesc (timestampVersions m)) k2)
    (h2 : sliceFrom (sortByTimestampDesc (timestampVersions m)) k1 =
      sliceFrom (sortByTimestampDesc (timestampVersions m)) k2) :
    identifyVersionsToCleanup m k1 d s now = identifyVersionsToCleanup m k2 d s now := by
  simp only [identifyVersionsToCleanup]
  rw [h1, h2]

/-- C7 amended: the planner performs no policy validation — a negative
keepCount is neither rejected with a validation failure nor clamped to
zero; planning proceeds under JavaScript slice semantics, which count a
negative index from the end of the sorted candidate list, so
keepCount = k < 0 behaves exactly like the non-negative keepCount
max(0, candidateCount + k). -/
theorem negative_keepCount_slice_semantics (m : LabelMap) (k d : Int) (s : Bool)
    (now : Clock) (hk : k < 0) :
    identifyVersionsToCleanup m k d s now =
      identifyVersionsToCleanup m
        (((((timestampVersions m).length : Int) + k).toNat : Nat) : Int) d s now := by
  have hlen : (sortByTimestampDesc (timestampVersions m)).length =
      (timestampVersions m).length := length_sortByTimestampDesc _
  refine identify_congr_slices m k _ d s now ?_ ?_
  · rw [sliceTo_natCast]
    unfold sliceTo
    rw [if_neg (not_le.mpr hk), hlen]
  · rw [sliceFrom_natCast]
    unfold sliceFrom
    rw [if_neg (not_le.mpr hk), hlen]

/-- Witness for C7 amended at keepCount −1 on the two-version map. -/
theorem negative_keepCount_slice_semantics_witness :
    (-1 : Int) < 0 ∧
      identifyVersionsToCleanup pairMap (-1) 7 true demoNow =
        identifyVersionsToCleanup pairMap
          (((((timestampVersions pairMap).length : Int) + (-1)).toNat : Nat) : Int)
          7 true demoNow :=
  ⟨by decide, negative_keepCount_slice_semantics pairMap (-1) 7 true demoNow (by decide)⟩

/-- Counterexample to C8 as stated: in the source, `now` is not among the
parameters of `identifyVersionsToCleanup` — it is read from the ambient
clock (`new Date()`) during planning — and the plan depends on that
ambient reading: two calls with identical label map and policy (the
function's entire source-level argument list) yield different plans at
different clock readings. -/
theorem clock_is_ambient_counterexample :
    identifyVersionsToCleanup demoMap 0 7 false demoNow ≠
      identifyVersionsToCleanup demoMap 0 7 false demoLater := by
  decide

/-- C8 amended: determinism given an explicit clock — planning is
referentially transparent in (labelMap, keepCount, keepDays, strict,
now): two calls whose five inputs are equal return equal plans.  The
clock is an explicit argument only in this embedding; in the source it
is read as an ambient global inside the planner. -/
theorem planner_deterministic (m1 m2 : LabelMap) (k1 k2 d1 d2 : Int) (s1 s2 : Bool)
    (n1 n2 : Clock) (hm : m1 = m2) (hk : k1 = k2) (hd : d1 = d2) (hs : s1 = s2)
    (hn : n1 = n2) :
    identifyVersionsToCleanup m1 k1 d1 s1 n1 =
      identifyVersionsToCleanup m2 k2 d2 s2 n2 := by
  rw [hm, hk, hd, hs, hn]

/-- Witness for C8 amended at concrete equal inputs. -/
theorem planner_deterministic_witness :
    ghostMap = ghostMap ∧
      identifyVersionsToCleanup ghostMap 10 7 false demoNow =
        identifyVersionsToCleanup ghostMap 10 7 false demoNow :=
  ⟨rfl, planner_deterministic ghostMap ghostMap 10 10 7 7 false false demoNow demoNow
    rfl rfl rfl rfl rfl⟩
